import Mathlib

/-!
Shallow embedding of `impersonate/admin.py` (django-impersonate admin module).

The module defines:
  * `friendly_name`: returns the user's full name if non-empty, else the username;
  * `SessionStateFilter`: an admin list filter with options `incomplete` / `complete`,
    narrowing by presence of the `session_ended_at` timestamp;
  * `ImpersonatorFilter`: an admin list filter enumerating the distinct impersonators
    (deduplicated through a Python `set`), suppressed when their number exceeds
    `MAX_FILTER_SIZE`, and narrowing by `impersonator_id`;
  * `ImpersonationLogAdmin`: the declarative admin view descriptor.

Querysets are embedded as Lean lists of records; `queryset.filter(...)` becomes
`List.filter` with the corresponding predicate, and `order_by` becomes a stable sort.
Python `set` iteration order is not deterministic, so building and iterating
`set([q.impersonator for q in qs])` is embedded as: the set contents are the
first-kept representative per user id (Django model equality compares primary keys),
and the iteration yields those contents in an arbitrary order, modelled by an
explicit enumeration parameter constrained to be a permutation of the contents.
-/

namespace Impersonate

/-- External collaborator (the auth user model): id (primary key), first name,
the value of the `get_full_name()` accessor, and username. -/
structure User where
  id : Nat
  first_name : String
  get_full_name : String
  username : String
deriving DecidableEq, Repr

/-- Impersonation log record: impersonator, impersonated user, session key,
start timestamp and optional end timestamp (absent while the session is open). -/
structure ImpersonationLog where
  impersonator : User
  impersonating : User
  session_key : String
  session_started_at : Nat
  session_ended_at : Option Nat
deriving DecidableEq, Repr

/-- Default of the `IMPERSONATE_MAX_FILTER_SIZE` setting (`MAX_FILTER_SIZE` in the
source reads the setting with default 100). -/
def MAX_FILTER_SIZE_default : Nat := 100

/-- Embeds `friendly_name(user)`: proper name if it exists, else username. -/
def friendly_name (user : User) : String :=
  if user.get_full_name ≠ "" then user.get_full_name
  else user.username

namespace SessionStateFilter

/-- Embeds `SessionStateFilter.lookups`: the two selectable options. -/
def lookups : List (String × String) :=
  [("incomplete", "Incomplete"), ("complete", "Complete")]

/-- Embeds `SessionStateFilter.queryset`: `value` is `self.value()` (the selected
option, `none` when absent); `incomplete` keeps records with a null end timestamp,
`complete` keeps records with a non-null end timestamp, anything else returns the
queryset unchanged. -/
def queryset (value : Option String) (qs : List ImpersonationLog) :
    List ImpersonationLog :=
  if value = some "incomplete" then
    qs.filter (fun q => q.session_ended_at.isNone)
  else if value = some "complete" then
    qs.filter (fun q => q.session_ended_at.isSome)
  else
    qs

end SessionStateFilter

/-- Lexicographic comparison of character lists by code point. -/
def strLeAux : List Char → List Char → Bool
  | [], _ => true
  | _ :: _, [] => false
  | a :: as, b :: bs =>
      if a.toNat < b.toNat then true
      else if b.toNat < a.toNat then false
      else strLeAux as bs

/-- Lexicographic string comparison, the order used by `order_by` on a text column. -/
def strLe (a b : String) : Bool := strLeAux a.data b.data

/-- One step of the stable sort: insert a record in front of the first record with
an impersonator first name not smaller than its own. -/
def insertByFirstName (q : ImpersonationLog) :
    List ImpersonationLog → List ImpersonationLog
  | [] => [q]
  | r :: rest =>
      if strLe q.impersonator.first_name r.impersonator.first_name
      then q :: r :: rest
      else r :: insertByFirstName q rest

/-- Embeds `model_admin.get_queryset(request).order_by('impersonator__first_name')`:
a stable sort of the records by the impersonator's first name (insertion sort). -/
def orderByFirstName (qs : List ImpersonationLog) : List ImpersonationLog :=
  qs.foldr insertByFirstName []

/-- The list comprehension `[q.impersonator for q in qs]` over the ordered queryset. -/
def impersonatorsOrdered (qs : List ImpersonationLog) : List User :=
  (orderByFirstName qs).map (fun q => q.impersonator)

/-- Accumulator form of the set contents: drop users whose id was already seen. -/
def pyDedupAux (seen : List Nat) : List User → List User
  | [] => []
  | u :: rest =>
      if u.id ∈ seen then pyDedupAux seen rest
      else u :: pyDedupAux (u.id :: seen) rest

/-- Contents of the Python set built from a list of users: Django model equality
compares primary keys, and inserting an element equal to one already present keeps
the element already in the set, so the contents are the first occurrence of each id. -/
def pyDedup (l : List User) : List User := pyDedupAux [] l

/-- Models iterating `set(l)` in Python: the iteration yields exactly the set's
contents (`pyDedup l`), once each, but in an arbitrary, implementation-defined
order — any permutation of the contents is an admissible iteration. -/
def IsSetEnum (l enum : List User) : Prop :=
  enum.Perm (pyDedup l)

instance (l enum : List User) : Decidable (IsSetEnum l enum) :=
  inferInstanceAs (Decidable (enum.Perm (pyDedup l)))

/-- Number of distinct impersonator identities (distinct primary keys) in a record
collection. -/
def distinctImpersonatorCount (qs : List ImpersonationLog) : Nat :=
  ((qs.map (fun q => q.impersonator.id)).dedup).length

namespace ImpersonatorFilter

/-- Embeds `ImpersonatorFilter.lookups`: if the number of unique impersonators
exceeds the configured cap the generator yields nothing (empty option list);
otherwise it yields `(i.id, friendly_name(i))` for each user produced by the set
iteration `enum`. -/
def lookups (max_filter_size : Nat) (_qs : List ImpersonationLog)
    (enum : List User) : List (Nat × String) :=
  if enum.length > max_filter_size then []
  else enum.map (fun i => (i.id, friendly_name i))

/-- Embeds `ImpersonatorFilter.queryset`: a selection in `(None, '')` is a no-op,
otherwise the queryset is narrowed to records whose `impersonator_id` matches the
selected value (a string taken from the request). -/
def queryset (value : Option String) (qs : List ImpersonationLog) :
    List ImpersonationLog :=
  if value = none ∨ value = some "" then qs
  else qs.filter (fun q => some (toString q.impersonator.id) == value)

end ImpersonatorFilter

/-- Kinds of entries of an admin `list_filter` declaration: the two custom filter
classes, or a plain model field name. -/
inductive AdminListFilter where
  | sessionStateFilter
  | impersonatorFilter
  | fieldFilter (field : String)
deriving DecidableEq, Repr

namespace ImpersonationLogAdmin

/-- Embeds the `list_display` declaration. -/
def list_display : List String :=
  ["impersonator_", "impersonating_", "session_key", "session_started_at", "duration"]

/-- Embeds the `readonly_fields` declaration. -/
def readonly_fields : List String :=
  ["impersonator", "impersonating", "session_key", "session_started_at",
   "session_ended_at", "duration"]

/-- Embeds the `list_filter` declaration. -/
def list_filter : List AdminListFilter :=
  [AdminListFilter.sessionStateFilter, AdminListFilter.impersonatorFilter,
   AdminListFilter.fieldFilter "session_started_at"]

/-- Embeds the `impersonator_` display function. -/
def impersonator_ (obj : ImpersonationLog) : String :=
  friendly_name obj.impersonator

/-- Embeds the `impersonating_` display function. -/
def impersonating_ (obj : ImpersonationLog) : String :=
  friendly_name obj.impersonating

end ImpersonationLogAdmin

/-- Boolean check that a user list is ordered (non-strictly) by first name. -/
def sortedByFirstNameB : List User → Bool
  | [] => true
  | [_] => true
  | a :: b :: rest =>
      strLe a.first_name b.first_name && sortedByFirstNameB (b :: rest)

/-! Concrete demonstration data used by witnesses and counterexamples. -/

/-- Demo user Alice, id 1. -/
def userAlice : User := ⟨1, "Alice", "Alice Smith", "alice"⟩

/-- Demo user Bob, id 2. -/
def userBob : User := ⟨2, "Bob", "Bob Stone", "bob"⟩

/-- Demo user with empty full name, id 3. -/
def userCara : User := ⟨3, "Cara", "", "cara"⟩

/-- Demo log: Alice impersonates Cara, session still open. -/
def logOpen : ImpersonationLog := ⟨userAlice, userCara, "sk1", 10, none⟩

/-- Demo log: Bob impersonates Cara, session finished. -/
def logClosed : ImpersonationLog := ⟨userBob, userCara, "sk2", 20, some 30⟩

/-- Demo log: Alice impersonates Bob, session finished. -/
def logClosed2 : ImpersonationLog := ⟨userAlice, userBob, "sk3", 40, some 50⟩

/-- Demo record collection with two distinct impersonators (Alice twice, Bob once). -/
def demoLogs : List ImpersonationLog := [logOpen, logClosed, logClosed2]

/-- An admissible set-iteration order over the impersonators of `demoLogs` that is
not ordered by first name. -/
def demoEnum : List User := [userBob, userAlice]

/-! Supporting lemmas about the set model and the ordering. -/

/-- Every element produced by the accumulator form comes from the input list. -/
theorem pyDedupAux_subset (l : List User) :
    ∀ (seen : List Nat), ∀ u ∈ pyDedupAux seen l, u ∈ l := by
  induction l with
  | nil =>
      intro seen u hu
      simp [pyDedupAux] at hu
  | cons v rest ih =>
      intro seen u hu
      by_cases h : v.id ∈ seen
      · rw [pyDedupAux, if_pos h] at hu
        exact List.mem_cons_of_mem _ (ih seen u hu)
      · rw [pyDedupAux, if_neg h, List.mem_cons] at hu
        rcases hu with rfl | hu
        · exact List.mem_cons_self _ _
        · exact List.mem_cons_of_mem _ (ih _ u hu)

/-- An id occurs among the accumulator-form contents exactly when it is unseen and
occurs in the input list. -/
theorem pyDedupAux_mem_id (l : List User) :
    ∀ (seen : List Nat) (x : Nat),
      x ∈ (pyDedupAux seen l).map (fun u => u.id) ↔
        x ∉ seen ∧ x ∈ l.map (fun u => u.id) := by
  induction l with
  | nil =>
      intro seen x
      simp [pyDedupAux]
  | cons v rest ih =>
      intro seen x
      by_cases h : v.id ∈ seen
      · rw [pyDedupAux, if_pos h, ih seen x, List.map_cons, List.mem_cons]
        constructor
        · rintro ⟨hxs, hxr⟩
          exact ⟨hxs, Or.inr hxr⟩
        · rintro ⟨hxs, rfl | hxr⟩
          · exact absurd h hxs
          · exact ⟨hxs, hxr⟩
      · rw [pyDedupAux, if_neg h]
        simp only [List.map_cons, List.mem_cons]
        rw [ih (v.id :: seen) x]
        simp only [List.mem_cons, not_or]
        constructor
        · rintro (rfl | ⟨⟨hne, hxs⟩, hxr⟩)
          · exact ⟨h, Or.inl rfl⟩
          · exact ⟨hxs, Or.inr hxr⟩
        · rintro ⟨hxs, rfl | hxr⟩
          · exact Or.inl rfl
          · by_cases hvx : x = v.id
            · exact Or.inl hvx
            · exact Or.inr ⟨⟨hvx, hxs⟩, hxr⟩

/-- The ids produced by the accumulator form avoid `seen` and are pairwise
distinct. -/
theorem pyDedupAux_id_nodup (l : List User) :
    ∀ (seen : List Nat), ((pyDedupAux seen l).map (fun u => u.id)).Nodup := by
  induction l with
  | nil =>
      intro seen
      simp [pyDedupAux]
  | cons v rest ih =>
      intro seen
      by_cases h : v.id ∈ seen
      · rw [pyDedupAux, if_pos h]
        exact ih seen
      · rw [pyDedupAux, if_neg h, List.map_cons, List.nodup_cons]
        refine ⟨?_, ih _⟩
        intro hmem
        exact ((pyDedupAux_mem_id rest _ v.id).mp hmem).1 (List.mem_cons_self _ _)

/-- Every element of the set contents comes from the input list. -/
theorem pyDedup_subset (l : List User) : ∀ u ∈ pyDedup l, u ∈ l :=
  pyDedupAux_subset l []

/-- The ids of the set contents are pairwise distinct. -/
theorem pyDedup_map_id_nodup (l : List User) :
    ((pyDedup l).map (fun u => u.id)).Nodup :=
  pyDedupAux_id_nodup l []

/-- An id occurs among the set contents exactly when it occurs in the input list. -/
theorem pyDedup_mem_id (l : List User) (x : Nat) :
    x ∈ (pyDedup l).map (fun u => u.id) ↔ x ∈ l.map (fun u => u.id) := by
  rw [pyDedup, pyDedupAux_mem_id l [] x]
  simp

/-- Size of the set contents is the number of distinct ids in the input list. -/
theorem pyDedup_length (l : List User) :
    (pyDedup l).length = (l.map (fun u => u.id)).dedup.length := by
  have h1 : ((pyDedup l).map (fun u => u.id)).Nodup := pyDedup_map_id_nodup l
  have h2 : ((pyDedup l).map (fun u => u.id)).toFinset
      = (l.map (fun u => u.id)).toFinset := by
    ext x
    simp only [List.mem_toFinset]
    exact pyDedup_mem_id l x
  calc (pyDedup l).length
      = ((pyDedup l).map (fun u => u.id)).length := (List.length_map _ _).symm
    _ = ((pyDedup l).map (fun u => u.id)).dedup.length := by
          rw [List.dedup_eq_self.mpr h1]
    _ = ((pyDedup l).map (fun u => u.id)).toFinset.card := (List.card_toFinset _).symm
    _ = (l.map (fun u => u.id)).toFinset.card := by rw [h2]
    _ = (l.map (fun u => u.id)).dedup.length := List.card_toFinset _

/-- The set contents are empty exactly for the empty input list. -/
theorem pyDedup_eq_nil_iff (l : List User) : pyDedup l = [] ↔ l = [] := by
  cases l with
  | nil => simp [pyDedup, pyDedupAux]
  | cons u rest => simp [pyDedup, pyDedupAux]

/-- Inserting a record yields a permutation of putting it in front. -/
theorem insertByFirstName_perm (q : ImpersonationLog)
    (l : List ImpersonationLog) :
    (insertByFirstName q l).Perm (q :: l) := by
  induction l with
  | nil => exact List.Perm.refl _
  | cons r rest ih =>
      rw [insertByFirstName]
      by_cases h : strLe q.impersonator.first_name r.impersonator.first_name = true
      · rw [if_pos h]
      · rw [if_neg h]
        exact (ih.cons r).trans (List.Perm.swap q r rest)

/-- The ordered queryset is a permutation of the original records. -/
theorem orderByFirstName_perm (qs : List ImpersonationLog) :
    (orderByFirstName qs).Perm qs := by
  induction qs with
  | nil => exact List.Perm.refl _
  | cons q rest ih =>
      have h : orderByFirstName (q :: rest)
          = insertByFirstName q (orderByFirstName rest) := rfl
      rw [h]
      exact (insertByFirstName_perm q _).trans (ih.cons q)

/-- The ordered impersonator list is a permutation of the impersonators of `qs`. -/
theorem impersonatorsOrdered_perm (qs : List ImpersonationLog) :
    (impersonatorsOrdered qs).Perm (qs.map (fun q => q.impersonator)) :=
  (orderByFirstName_perm qs).map _

/-- Any admissible set iteration has length the distinct impersonator count. -/
theorem setEnum_length (qs : List ImpersonationLog) (enum : List User)
    (h : IsSetEnum (impersonatorsOrdered qs) enum) :
    enum.length = distinctImpersonatorCount qs := by
  rw [h.length_eq, pyDedup_length]
  unfold distinctImpersonatorCount
  have hp : ((impersonatorsOrdered qs).map (fun u => u.id)).Perm
      (qs.map (fun q => q.impersonator.id)) := by
    have hq := (impersonatorsOrdered_perm qs).map (fun u => u.id)
    simpa only [List.map_map, Function.comp_def] using hq
  exact hp.dedup.length_eq

/-- Evaluation of the session-state filter under the `incomplete` selection. -/
theorem sessionState_queryset_incomplete (qs : List ImpersonationLog) :
    SessionStateFilter.queryset (some "incomplete") qs
      = qs.filter (fun q => q.session_ended_at.isNone) := rfl

/-- Evaluation of the session-state filter under the `complete` selection. -/
theorem sessionState_queryset_complete (qs : List ImpersonationLog) :
    SessionStateFilter.queryset (some "complete") qs
      = qs.filter (fun q => q.session_ended_at.isSome) := rfl

/-- Every user of an admissible set iteration is an impersonator of the records. -/
theorem setEnum_mem_subset (qs : List ImpersonationLog) (enum : List User)
    (h : IsSetEnum (impersonatorsOrdered qs) enum) :
    ∀ v ∈ enum, v ∈ qs.map (fun q => q.impersonator) := by
  intro v hv
  have h1 : v ∈ pyDedup (impersonatorsOrdered qs) := h.mem_iff.mp hv
  have h2 := pyDedup_subset _ v h1
  exact (impersonatorsOrdered_perm qs).mem_iff.mp h2

/-- Every impersonator id of the records is covered by an admissible iteration. -/
theorem setEnum_covers (qs : List ImpersonationLog) (enum : List User)
    (h : IsSetEnum (impersonatorsOrdered qs) enum) :
    ∀ u ∈ qs.map (fun q => q.impersonator), ∃ v ∈ enum, v.id = u.id := by
  intro u hu
  have hu' : u ∈ impersonatorsOrdered qs :=
    (impersonatorsOrdered_perm qs).mem_iff.mpr hu
  have hid : u.id ∈ (impersonatorsOrdered qs).map (fun w => w.id) :=
    List.mem_map.mpr ⟨u, hu', rfl⟩
  have hid2 : u.id ∈ (pyDedup (impersonatorsOrdered qs)).map (fun w => w.id) :=
    (pyDedup_mem_id _ _).mpr hid
  rcases List.mem_map.mp hid2 with ⟨v, hv, hvid⟩
  exact ⟨v, h.mem_iff.mpr hv, hvid⟩

/-- Evaluation of the impersonator filter's option list when the distinct count is
within the cap. -/
theorem impersonatorFilter_lookups_le (cap : Nat) (qs : List ImpersonationLog)
    (enum : List User) (h : IsSetEnum (impersonatorsOrdered qs) enum)
    (hcap : distinctImpersonatorCount qs ≤ cap) :
    ImpersonatorFilter.lookups cap qs enum
      = enum.map (fun i => (i.id, friendly_name i)) := by
  have hlen := setEnum_length qs enum h
  unfold ImpersonatorFilter.lookups
  rw [if_neg (by omega)]

/-- Membership characterisation of the impersonator filter's narrowing under a
non-empty selection. -/
theorem impersonatorFilter_queryset_mem (qs : List ImpersonationLog) (v : String)
    (hv : v ≠ "") (r : ImpersonationLog) :
    r ∈ ImpersonatorFilter.queryset (some v) qs ↔
      r ∈ qs ∧ toString r.impersonator.id = v := by
  unfold ImpersonatorFilter.queryset
  rw [if_neg (by simp [hv])]
  simp [List.mem_filter]

/-! Claim theorems. -/

/-- C1: for every record collection, the session-state filter with no selection
returns the collection unchanged, and with selection `incomplete` returns exactly
the subset of records whose end timestamp (`session_ended_at`) is null. -/
theorem c1_session_state_no_selection_and_incomplete (qs : List ImpersonationLog) :
    SessionStateFilter.queryset none qs = qs ∧
    ∀ r : ImpersonationLog,
      r ∈ SessionStateFilter.queryset (some "incomplete") qs ↔
        r ∈ qs ∧ r.session_ended_at = none := by
  refine ⟨rfl, fun r => ?_⟩
  rw [sessionState_queryset_incomplete, List.mem_filter,
    Option.isNone_iff_eq_none]

/-- C2: for every user identity, the friendly label equals the full name when the
full name is a non-empty string, and equals the username otherwise. -/
theorem c2_friendly_label (user : User) :
    (user.get_full_name ≠ "" → friendly_name user = user.get_full_name) ∧
    (user.get_full_name = "" → friendly_name user = user.username) := by
  constructor
  · intro h
    simp [friendly_name, h]
  · intro h
    simp [friendly_name, h]

/-- Witness for C2 at the users of the spec scenario. -/
theorem c2_friendly_label_witness :
    friendly_name userAlice = "Alice Smith" ∧ friendly_name userCara = "cara" :=
  ⟨(c2_friendly_label userAlice).1 (by decide),
   (c2_friendly_label userCara).2 (by decide)⟩

/-- C7: for every record collection, the `complete` result is exactly the
complement, within the input collection, of the `incomplete` result: the two
results are disjoint and their union is the input collection. -/
theorem c7_complete_is_complement (qs : List ImpersonationLog) :
    (∀ r : ImpersonationLog,
        ¬(r ∈ SessionStateFilter.queryset (some "incomplete") qs ∧
          r ∈ SessionStateFilter.queryset (some "complete") qs)) ∧
    (∀ r : ImpersonationLog,
        r ∈ qs ↔
          r ∈ SessionStateFilter.queryset (some "incomplete") qs ∨
          r ∈ SessionStateFilter.queryset (some "complete") qs) := by
  constructor
  · rintro r ⟨h1, h2⟩
    rw [sessionState_queryset_incomplete, List.mem_filter] at h1
    rw [sessionState_queryset_complete, List.mem_filter] at h2
    rw [Option.isNone_iff_eq_none] at h1
    rw [h1.2] at h2
    exact absurd h2.2 (by simp)
  · intro r
    rw [sessionState_queryset_incomplete, sessionState_queryset_complete,
      List.mem_filter, List.mem_filter]
    constructor
    · intro hr
      cases hend : r.session_ended_at with
      | none => exact Or.inl ⟨hr, by simp [hend]⟩
      | some t => exact Or.inr ⟨hr, by simp [hend]⟩
    · rintro (⟨hr, -⟩ | ⟨hr, -⟩) <;> exact hr

/-- C9: for every record collection and every selection value that is neither
`incomplete` nor `complete` (including arbitrary invalid strings), the
session-state filter returns the collection unchanged rather than failing. -/
theorem c9_session_state_other_values (v : Option String)
    (qs : List ImpersonationLog)
    (h1 : v ≠ some "incomplete") (h2 : v ≠ some "complete") :
    SessionStateFilter.queryset v qs = qs := by
  unfold SessionStateFilter.queryset
  rw [if_neg h1, if_neg h2]

/-- Witness for C9 at the selection value `bogus`. -/
theorem c9_session_state_other_values_witness :
    (some "bogus" : Option String) ≠ some "incomplete" ∧
    (some "bogus" : Option String) ≠ some "complete" ∧
    SessionStateFilter.queryset (some "bogus") demoLogs = demoLogs :=
  ⟨by decide, by decide,
   c9_session_state_other_values (some "bogus") demoLogs (by decide) (by decide)⟩

/-- C3: for every record collection whose number of distinct impersonator
identities is at most the configured cap, the impersonator filter's option list
has length equal to that distinct count, contains no duplicate identities, and
consists of one (identity, friendly-label) pair per distinct impersonator. -/
theorem c3_impersonator_lookups_under_cap (cap : Nat)
    (qs : List ImpersonationLog) (enum : List User)
    (henum : IsSetEnum (impersonatorsOrdered qs) enum)
    (hcap : distinctImpersonatorCount qs ≤ cap) :
    (ImpersonatorFilter.lookups cap qs enum).length
      = distinctImpersonatorCount qs ∧
    ((ImpersonatorFilter.lookups cap qs enum).map Prod.fst).Nodup ∧
    (∀ p ∈ ImpersonatorFilter.lookups cap qs enum,
      ∃ v ∈ qs.map (fun q => q.impersonator), p = (v.id, friendly_name v)) ∧
    (∀ u ∈ qs.map (fun q => q.impersonator),
      ∃ v ∈ qs.map (fun q => q.impersonator), v.id = u.id ∧
        (v.id, friendly_name v) ∈ ImpersonatorFilter.lookups cap qs enum) := by
  have hlen := setEnum_length qs enum henum
  have heval := impersonatorFilter_lookups_le cap qs enum henum hcap
  refine ⟨?_, ?_, ?_, ?_⟩
  · rw [heval, List.length_map, hlen]
  · rw [heval, List.map_map]
    have hcomp : (Prod.fst ∘ fun i : User => (i.id, friendly_name i))
        = fun i : User => i.id := rfl
    rw [hcomp]
    exact (henum.map (fun u => u.id)).nodup_iff.mpr (pyDedup_map_id_nodup _)
  · intro p hp
    rw [heval] at hp
    rcases List.mem_map.mp hp with ⟨v, hv, rfl⟩
    exact ⟨v, setEnum_mem_subset qs enum henum v hv, rfl⟩
  · intro u hu
    rcases setEnum_covers qs enum henum u hu with ⟨v, hv, hvid⟩
    refine ⟨v, setEnum_mem_subset qs enum henum v hv, hvid, ?_⟩
    rw [heval]
    exact List.mem_map.mpr ⟨v, hv, rfl⟩

/-- Witness for C3 at the demo collection (two distinct impersonators, cap 100). -/
theorem c3_impersonator_lookups_under_cap_witness :
    IsSetEnum (impersonatorsOrdered demoLogs) demoEnum ∧
    distinctImpersonatorCount demoLogs ≤ 100 ∧
    (ImpersonatorFilter.lookups 100 demoLogs demoEnum).length
      = distinctImpersonatorCount demoLogs :=
  ⟨by decide, by decide,
   (c3_impersonator_lookups_under_cap 100 demoLogs demoEnum
     (by decide) (by decide)).1⟩

/-- Counterexample to C4 as stated: for the empty record collection the option
list is empty although the distinct impersonator count (0) does not exceed the
cap (100), so "empty exactly when the distinct count strictly exceeds the cap"
fails. -/
theorem c4_counterexample :
    IsSetEnum (impersonatorsOrdered []) [] ∧
    ¬(ImpersonatorFilter.lookups 100 [] [] = [] ↔
        distinctImpersonatorCount [] > 100) := by
  decide

/-- C4 (amended): the option list is empty exactly when the collection is empty
or the distinct impersonator count strictly exceeds the cap; a distinct count
exactly equal to the cap still yields the full option list. -/
theorem c4_amended_suppression_iff (cap : Nat) (qs : List ImpersonationLog)
    (enum : List User) (henum : IsSetEnum (impersonatorsOrdered qs) enum) :
    (ImpersonatorFilter.lookups cap qs enum = [] ↔
      qs = [] ∨ distinctImpersonatorCount qs > cap) ∧
    (distinctImpersonatorCount qs = cap →
      (ImpersonatorFilter.lookups cap qs enum).length
        = distinctImpersonatorCount qs) := by
  have hlen := setEnum_length qs enum henum
  constructor
  · constructor
    · intro hempty
      by_cases hgt : distinctImpersonatorCount qs > cap
      · exact Or.inr hgt
      · left
        unfold ImpersonatorFilter.lookups at hempty
        rw [if_neg (by omega)] at hempty
        have henil : enum = [] := List.map_eq_nil_iff.mp hempty
        have h0 : (pyDedup (impersonatorsOrdered qs)).length = 0 := by
          rw [← henum.length_eq, henil]
          rfl
        have hpnil : pyDedup (impersonatorsOrdered qs) = [] :=
          List.length_eq_zero.mp h0
        have hdonil : impersonatorsOrdered qs = [] :=
          (pyDedup_eq_nil_iff _).mp hpnil
        have hql : qs.length = 0 := by
          have h1 : (orderByFirstName qs).length = 0 := by
            have h2 := congrArg List.length hdonil
            simpa [impersonatorsOrdered] using h2
          rw [← (orderByFirstName_perm qs).length_eq]
          exact h1
        exact List.length_eq_zero.mp hql
    · intro h
      rcases h with rfl | hgt
      · have hpnil : pyDedup (impersonatorsOrdered ([] : List ImpersonationLog))
            = [] := rfl
        have henil : enum = [] := by
          have hperm : enum.Perm
              (pyDedup (impersonatorsOrdered ([] : List ImpersonationLog))) :=
            henum
          rw [hpnil] at hperm
          exact hperm.eq_nil
        subst henil
        simp [ImpersonatorFilter.lookups]
      · unfold ImpersonatorFilter.lookups
        rw [if_pos (by omega)]
  · intro hceq
    unfold ImpersonatorFilter.lookups
    rw [if_neg (by omega), List.length_map, hlen]

/-- Witness for the amended C4 at the demo collection. -/
theorem c4_amended_suppression_iff_witness :
    IsSetEnum (impersonatorsOrdered demoLogs) demoEnum ∧
    (ImpersonatorFilter.lookups 100 demoLogs demoEnum = [] ↔
      demoLogs = [] ∨ distinctImpersonatorCount demoLogs > 100) :=
  ⟨by decide,
   (c4_amended_suppression_iff 100 demoLogs demoEnum (by decide)).1⟩

/-- C5: for every record collection, the impersonator filter with an empty or
absent (None) selection returns the collection unchanged, and with a non-empty
selected value returns exactly the records whose impersonator identity matches
that value. -/
theorem c5_impersonator_queryset (qs : List ImpersonationLog) :
    ImpersonatorFilter.queryset none qs = qs ∧
    ImpersonatorFilter.queryset (some "") qs = qs ∧
    ∀ v : String, v ≠ "" → ∀ r : ImpersonationLog,
      r ∈ ImpersonatorFilter.queryset (some v) qs ↔
        r ∈ qs ∧ toString r.impersonator.id = v :=
  ⟨rfl, rfl, fun v hv r => impersonatorFilter_queryset_mem qs v hv r⟩

/-- Witness for C5 at the demo collection and selection "1". -/
theorem c5_impersonator_queryset_witness :
    ImpersonatorFilter.queryset none demoLogs = demoLogs ∧
    (logOpen ∈ ImpersonatorFilter.queryset (some "1") demoLogs ↔
      logOpen ∈ demoLogs ∧ toString logOpen.impersonator.id = "1") :=
  ⟨(c5_impersonator_queryset demoLogs).1,
   (c5_impersonator_queryset demoLogs).2.2 "1" (by decide) logOpen⟩

/-- Counterexample to C6 as stated: `demoEnum` is an admissible iteration order
of the Python set of impersonators of `demoLogs` (whose distinct count 2 is
within the cap 100), yet the option list it produces enumerates Bob before
Alice, not in first-name order. -/
theorem c6_counterexample :
    IsSetEnum (impersonatorsOrdered demoLogs) demoEnum ∧
    distinctImpersonatorCount demoLogs ≤ 100 ∧
    ImpersonatorFilter.lookups 100 demoLogs demoEnum
      = [(2, "Bob Stone"), (1, "Alice Smith")] ∧
    sortedByFirstNameB demoEnum = false := by
  decide

/-- C6 (amended): the option list consists of the distinct impersonators, but
its enumeration order is arbitrary: deduplication passes through an unordered
set, so any permutation of an admissible enumeration is again admissible and
yields the same option list up to reordering; first-name order is not
guaranteed. -/
theorem c6_amended_order_arbitrary (cap : Nat) (qs : List ImpersonationLog)
    (enum enum' : List User)
    (h : IsSetEnum (impersonatorsOrdered qs) enum) (hp : enum.Perm enum') :
    IsSetEnum (impersonatorsOrdered qs) enum' ∧
    (ImpersonatorFilter.lookups cap qs enum').Perm
      (ImpersonatorFilter.lookups cap qs enum) := by
  refine ⟨hp.symm.trans h, ?_⟩
  unfold ImpersonatorFilter.lookups
  by_cases hgt : enum.length > cap
  · rw [if_pos hgt, if_pos (by rw [← hp.length_eq]; exact hgt)]
  · rw [if_neg hgt, if_neg (by rw [← hp.length_eq]; exact hgt)]
    exact (hp.map _).symm

/-- Witness for the amended C6: the first-name-sorted enumeration and the demo
enumeration are both admissible and give the same options up to reordering. -/
theorem c6_amended_order_arbitrary_witness :
    IsSetEnum (impersonatorsOrdered demoLogs) demoEnum ∧
    (ImpersonatorFilter.lookups 100 demoLogs demoEnum).Perm
      (ImpersonatorFilter.lookups 100 demoLogs [userAlice, userBob]) :=
  c6_amended_order_arbitrary 100 demoLogs [userAlice, userBob] demoEnum
    (by decide) (by decide)

/-- C8: the admin view descriptor declares exactly the listed visible columns,
read-only fields and attached filters, and its two label-resolution functions
return the friendly label of the corresponding user on the record. -/
theorem c8_admin_descriptor :
    ImpersonationLogAdmin.list_display
      = ["impersonator_", "impersonating_", "session_key", "session_started_at",
         "duration"] ∧
    ImpersonationLogAdmin.readonly_fields
      = ["impersonator", "impersonating", "session_key", "session_started_at",
         "session_ended_at", "duration"] ∧
    ImpersonationLogAdmin.list_filter
      = [AdminListFilter.sessionStateFilter, AdminListFilter.impersonatorFilter,
         AdminListFilter.fieldFilter "session_started_at"] ∧
    (∀ obj : ImpersonationLog,
      ImpersonationLogAdmin.impersonator_ obj = friendly_name obj.impersonator) ∧
    (∀ obj : ImpersonationLog,
      ImpersonationLogAdmin.impersonating_ obj
        = friendly_name obj.impersonating) :=
  ⟨rfl, rfl, rfl, fun _ => rfl, fun _ => rfl⟩

/-- C10: a non-empty selection narrows the collection by the selected
impersonator id without checking membership in the enumerated option list: even
when the option list is suppressed (distinct count above the cap), the
selection still filters. -/
theorem c10_filter_without_membership_check (cap : Nat)
    (qs : List ImpersonationLog) (enum : List User) (v : String)
    (henum : IsSetEnum (impersonatorsOrdered qs) enum)
    (hgt : distinctImpersonatorCount qs > cap) (hv : v ≠ "") :
    ImpersonatorFilter.lookups cap qs enum = [] ∧
    ∀ r : ImpersonationLog,
      r ∈ ImpersonatorFilter.queryset (some v) qs ↔
        r ∈ qs ∧ toString r.impersonator.id = v := by
  have hlen := setEnum_length qs enum henum
  constructor
  · unfold ImpersonatorFilter.lookups
    rw [if_pos (by omega)]
  · exact fun r => impersonatorFilter_queryset_mem qs v hv r

/-- Witness for C10 at cap 1, where the demo collection's two distinct
impersonators suppress the option list. -/
theorem c10_filter_without_membership_check_witness :
    IsSetEnum (impersonatorsOrdered demoLogs) demoEnum ∧
    distinctImpersonatorCount demoLogs > 1 ∧
    ("1" : String) ≠ "" ∧
    ImpersonatorFilter.lookups 1 demoLogs demoEnum = [] :=
  ⟨by decide, by decide, by decide,
   (c10_filter_without_membership_check 1 demoLogs demoEnum "1"
     (by decide) (by decide) (by decide)).1⟩

end Impersonate
